import Mathlib

/-!
Verification of the co-authorship analysis program (files
`507final_project/DataStructure.py` and `si507final/coauthor.py`).

The Python code is embedded shallowly:

* Python `dict`s (insertion ordered, unique keys) become association lists
  `List (κ × β)`; `lookup` finds the first binding, `updateValue` replaces the
  value of the first binding in place, and fresh keys are appended at the end,
  exactly as CPython dicts behave.
* `arxiv.Result.Author` objects carry a `name`, and the arxiv library defines
  their equality (`Author.__eq__`) as equality of names; the structure
  `Author` below therefore derives `DecidableEq`, which compares names.
* `list(set(xs))` deduplicates `xs` with an order the Python language does not
  specify; it is modelled by `List.dedup`.  The program only ever uses the
  contents of these lists (membership, length after dedup), never the order.
* `str.lower`, `str.replace(' ', '_')` and string comparison are modelled
  per character (`pyLower`, `pyReplaceSpaces`, `charListLt`); all category and
  author strings involved are plain ASCII, where these agree with Python.
* Methods that read `self.authors` are additionally wrapped as state-passing
  functions (suffix `S`) returning the state they leave behind, so that
  absence of mutation is an explicit statement rather than a convention.
-/

namespace Portfolio

/-- ASCII lowercasing of one character, as CPython's `str.lower` acts on the
ASCII range. -/
def charLower (c : Char) : Char :=
  if 'A' ≤ c ∧ c ≤ 'Z' then Char.ofNat (c.toNat + 32) else c

/-- Model of Python `s.lower()` for the ASCII strings this program handles. -/
def pyLower (s : String) : String := String.mk (s.data.map charLower)

/-- Model of Python `s.replace(' ', '_')`: the pattern is a single character,
so the replacement is a character map. -/
def pyReplaceSpaces (s : String) : String :=
  String.mk (s.data.map (fun ch => if ch = ' ' then '_' else ch))

/-- Lexicographic comparison of character lists by code point: Python's `<`
on strings. -/
def charListLt : List Char → List Char → Bool
  | [], [] => false
  | [], _ :: _ => true
  | _ :: _, [] => false
  | a :: as, b :: bs => if a < b then true else if b < a then false else charListLt as bs

/-- Author object of the arxiv API.  The arxiv library defines
`Result.Author.__eq__` to compare names, so derived structural equality
(equality of the `name` field) is the faithful equality. -/
structure Author where
  name : String
deriving DecidableEq

/-- Articles enter the aggregation only through their `authors` list. -/
abbrev Article := List Author

/-- Author record: the value stored under an author's name, i.e. the Python
dict `\x7b'co_authors': [...], 'num_pubs': n\x7d`. -/
structure AuthorRec where
  co_authors : List String
  num_pubs : Nat
deriving DecidableEq

/-- Association-list model of a Python dict from author names to records. -/
abbrev AuthorsDict := List (String × AuthorRec)

/-- First-binding lookup in an association list: Python `d[k]` / `k in d`. -/
def lookup {κ β : Type} [DecidableEq κ] : List (κ × β) → κ → Option β
  | [], _ => none
  | e :: rest, k => if e.1 = k then some e.2 else lookup rest k

/-- In-place value update of the first binding of `k`: Python `d[k] = f(d[k])`
on a dict, which keeps insertion order. -/
def updateValue {κ β : Type} [DecidableEq κ] :
    List (κ × β) → κ → (β → β) → List (κ × β)
  | [], _, _ => []
  | e :: rest, k, f =>
    if e.1 = k then (e.1, f e.2) :: rest else e :: updateValue rest k f

/-- Key list of an association list (Python `list(d)`). -/
def keys {κ β : Type} (l : List (κ × β)) : List κ := l.map Prod.fst

@[simp] theorem lookup_nil {κ β : Type} [DecidableEq κ] (k : κ) :
    lookup ([] : List (κ × β)) k = none := rfl

@[simp] theorem lookup_cons {κ β : Type} [DecidableEq κ] (e : κ × β)
    (rest : List (κ × β)) (k : κ) :
    lookup (e :: rest) k = if e.1 = k then some e.2 else lookup rest k := rfl

theorem lookup_append {κ β : Type} [DecidableEq κ] (l₁ l₂ : List (κ × β)) (k : κ) :
    lookup (l₁ ++ l₂) k =
      match lookup l₁ k with
      | some v => some v
      | none => lookup l₂ k := by
  induction l₁ with
  | nil => simp
  | cons e rest ih =>
    by_cases h : e.1 = k <;> simp [h, ih]

theorem lookup_updateValue {κ β : Type} [DecidableEq κ] (l : List (κ × β))
    (k : κ) (f : β → β) (n : κ) :
    lookup (updateValue l k f) n =
      if n = k then (lookup l k).map f else lookup l n := by
  induction l with
  | nil => simp [updateValue]
  | cons e rest ih =>
    by_cases hek : e.1 = k
    · by_cases hnk : n = k
      · simp [updateValue, hek, hnk]
      · have hen : e.1 ≠ n := by rw [hek]; exact fun hc => hnk hc.symm
        have hkn : k ≠ n := fun hc => hnk hc.symm
        simp [updateValue, hek, hnk, hen, hkn]
    · by_cases hen : e.1 = n
      · have hnk : n ≠ k := by rw [← hen]; exact fun hc => hek hc
        simp [updateValue, hek, hen, hnk]
      · simp [updateValue, hek, hen, ih]

theorem keys_updateValue {κ β : Type} [DecidableEq κ] (l : List (κ × β))
    (k : κ) (f : β → β) : keys (updateValue l k f) = keys l := by
  induction l with
  | nil => rfl
  | cons e rest ih =>
    by_cases h : e.1 = k <;> simp [updateValue, keys, h] <;>
      simpa [keys] using ih

theorem lookup_eq_none_iff {κ β : Type} [DecidableEq κ] (l : List (κ × β)) (k : κ) :
    lookup l k = none ↔ k ∉ keys l := by
  induction l with
  | nil => simp [keys]
  | cons e rest ih =>
    by_cases h : e.1 = k <;> simp [keys, h, ih] <;> tauto

theorem lookup_mem {κ β : Type} [DecidableEq κ] {l : List (κ × β)} {k : κ} {v : β}
    (h : lookup l k = some v) : (k, v) ∈ l := by
  induction l with
  | nil => simp at h
  | cons e rest ih =>
    by_cases he : e.1 = k
    · simp [he] at h
      have hkv : (k, v) = e := by obtain ⟨e1, e2⟩ := e; simp_all
      exact hkv ▸ List.mem_cons_self _ _
    · simp [he] at h
      exact List.mem_cons_of_mem _ (ih h)

theorem lookup_of_mem_nodup {κ β : Type} [DecidableEq κ] {l : List (κ × β)}
    {k : κ} {v : β} (hnd : (keys l).Nodup) (h : (k, v) ∈ l) :
    lookup l k = some v := by
  induction l with
  | nil => simp at h
  | cons e rest ih =>
    obtain ⟨h1, h2⟩ := List.nodup_cons.mp (show (e.1 :: keys rest).Nodup from hnd)
    rcases List.mem_cons.mp h with he | hrest
    · simp [← he]
    · have hk : k ∈ keys rest := List.mem_map.mpr ⟨(k, v), hrest, rfl⟩
      have hek : e.1 ≠ k := fun hc => h1 (hc ▸ hk)
      simp [hek, ih h2 hrest]

namespace DataStructure

/-- Body of the inner loop of `ArticleAnalyzer.extract_authors`
(`DataStructure.py` lines 44-53): one author occurrence of one article.
`co_authors = [a.name for a in authors_list if a != author]`; a fresh author
name is inserted with `num_pubs = 1`, an existing one has the co-author list
extended, deduplicated through `list(set(...))`, and `num_pubs` bumped. -/
def processAuthor (authors_list : Article) (st : AuthorsDict) (author : Author) :
    AuthorsDict :=
  let author_name := author.name
  let co_authors := (authors_list.filter (fun a => a ≠ author)).map Author.name
  match lookup st author_name with
  | none => st ++ [(author_name, ⟨co_authors, 1⟩)]
  | some _ =>
    updateValue st author_name
      (fun r => ⟨(r.co_authors ++ co_authors).dedup, r.num_pubs + 1⟩)

/-- One iteration of the outer loop of `extract_authors`: fold the iteration
over `authors_list` of one article. -/
def processArticle (st : AuthorsDict) (article : Article) : AuthorsDict :=
  article.foldl (processAuthor article) st

/-- Aggregation loop of `ArticleAnalyzer.extract_authors`
(`DataStructure.py` lines 42-53), starting from the empty dict. -/
def extract_authors (articles : List Article) : AuthorsDict :=
  articles.foldl processArticle []

/-- File path written by `extract_authors` (`DataStructure.py` lines 55-57):
spaces of the category replaced by underscores, then
`author_data/..._authors.json`. -/
def writePath (category : String) : String :=
  "author_data/" ++ pyReplaceSpaces category ++ "_authors.json"

/-- Name list of an article's author list, filtered away from the name `n`:
the value of `co_authors` computed for an occurrence of an author named `n`. -/
def coOf (article : Article) (n : String) : List String :=
  (article.filter (fun a => a.name ≠ n)).map Author.name

theorem author_ne_iff (a b : Author) : a ≠ b ↔ a.name ≠ b.name := by
  cases a; cases b; simp

theorem co_authors_eq_coOf (article : Article) (author : Author) :
    (article.filter (fun a => a ≠ author)).map Author.name =
      coOf article author.name := by
  unfold coOf
  congr 1
  apply List.filter_congr
  intro a _
  exact decide_eq_decide.mpr (author_ne_iff a author)

theorem self_not_mem_coOf (article : Article) (n : String) : n ∉ coOf article n := by
  unfold coOf
  intro h
  rcases List.mem_map.mp h with ⟨a, ha, hname⟩
  have := List.of_mem_filter ha
  simp [hname] at this

/-- Effect of one `processAuthor` step on every lookup. -/
theorem processAuthor_lookup (article : Article) (st : AuthorsDict)
    (author : Author) (n : String) :
    lookup (processAuthor article st author) n =
      if n = author.name then
        match lookup st n with
        | none => some ⟨coOf article n, 1⟩
        | some r => some ⟨(r.co_authors ++ coOf article n).dedup, r.num_pubs + 1⟩
      else lookup st n := by
  unfold processAuthor
  rw [co_authors_eq_coOf]
  by_cases hn : n = author.name
  · subst hn
    cases hst : lookup st author.name with
    | none => simp [hst, lookup_append]
    | some r => simp [hst, lookup_updateValue]
  · cases hst : lookup st author.name with
    | none =>
      have hne : author.name ≠ n := fun hc => hn hc.symm
      cases hstn : lookup st n with
      | none => simp [hst, lookup_append, hstn, hn, hne]
      | some r => simp [hst, lookup_append, hstn, hn]
    | some r => simp [hst, lookup_updateValue, hn]

/-- Characterisation of processing one article whose author list repeats no
name: every name of the article gets exactly one insert-or-update with
co-author list `coOf`, every other name is untouched. -/
theorem processArticle_lookup (article : Article) (st : AuthorsDict) (n : String)
    (hnd : (article.map Author.name).Nodup) :
    lookup (processArticle st article) n =
      if n ∈ article.map Author.name then
        match lookup st n with
        | none => some ⟨coOf article n, 1⟩
        | some r => some ⟨(r.co_authors ++ coOf article n).dedup, r.num_pubs + 1⟩
      else lookup st n := by
  unfold processArticle
  suffices h : ∀ (l : List Author) (st : AuthorsDict),
      (l.map Author.name).Nodup →
      lookup (l.foldl (processAuthor article) st) n =
        if n ∈ l.map Author.name then
          match lookup st n with
          | none => some ⟨coOf article n, 1⟩
          | some r => some ⟨(r.co_authors ++ coOf article n).dedup, r.num_pubs + 1⟩
        else lookup st n from h article st hnd
  intro l
  induction l with
  | nil => intro st _; simp
  | cons a rest ih =>
    intro st hnd'
    obtain ⟨h1, h2⟩ := List.nodup_cons.mp
      (show (a.name :: rest.map Author.name).Nodup from hnd')
    by_cases hn : n = a.name
    · subst hn
      rw [List.foldl_cons, ih _ h2]
      cases hst : lookup st a.name with
      | none => simp [h1, processAuthor_lookup, hst]
      | some r => simp [h1, processAuthor_lookup, hst]
    · rw [List.foldl_cons, ih _ h2]
      by_cases hmem : n ∈ rest.map Author.name
      · simp [hmem, hn, processAuthor_lookup]
      · simp [hmem, hn, processAuthor_lookup]

/-- Invariant of the aggregation dict: no record's co-author list contains the
record's own author name. -/
def NoSelf (st : AuthorsDict) : Prop :=
  ∀ n r, lookup st n = some r → n ∉ r.co_authors

theorem noSelf_processAuthor (article : Article) (st : AuthorsDict)
    (author : Author) (h : NoSelf st) : NoSelf (processAuthor article st author) := by
  intro n r hr
  rw [processAuthor_lookup] at hr
  by_cases hn : n = author.name
  · rw [if_pos hn] at hr
    cases hst : lookup st n with
    | none =>
      rw [hst] at hr
      cases hr
      simpa using self_not_mem_coOf article n
    | some r₀ =>
      rw [hst] at hr
      cases hr
      intro hmem
      rcases List.mem_append.mp (List.mem_dedup.mp hmem) with hold | hnew
      · exact h n r₀ hst hold
      · exact self_not_mem_coOf article n hnew
  · rw [if_neg hn] at hr
    exact h n r hr

theorem noSelf_processArticle (st : AuthorsDict) (article : Article)
    (h : NoSelf st) : NoSelf (processArticle st article) := by
  unfold processArticle
  exact article.foldlRecOn (processAuthor article) st h
    (fun st' hst' a _ => noSelf_processAuthor article st' a hst')

/-- Publication count stored for `n` (0 when `n` has no record yet). -/
def numPubsAt (st : AuthorsDict) (n : String) : Nat :=
  match lookup st n with
  | some r => r.num_pubs
  | none => 0

/-- Number of articles of the input list in which the name `n` appears. -/
def countArticlesWith (articles : List Article) (n : String) : Nat :=
  (articles.filter (fun article => n ∈ article.map Author.name)).length

theorem countArticlesWith_append (xs : List Article) (article : Article) (n : String) :
    countArticlesWith (xs ++ [article]) n =
      countArticlesWith xs n + (if n ∈ article.map Author.name then 1 else 0) := by
  unfold countArticlesWith
  rw [List.filter_append, List.length_append]
  by_cases h : n ∈ article.map Author.name
  · rw [if_pos h, List.filter_cons_of_pos (by simpa using h)]
    simp
  · rw [if_neg h, List.filter_cons_of_neg (by simpa using h)]
    simp

theorem processArticle_numPubsAt (st : AuthorsDict) (article : Article) (n : String)
    (hnd : (article.map Author.name).Nodup) :
    numPubsAt (processArticle st article) n =
      numPubsAt st n + (if n ∈ article.map Author.name then 1 else 0) := by
  unfold numPubsAt
  rw [processArticle_lookup article st n hnd]
  by_cases h : n ∈ article.map Author.name
  · cases hst : lookup st n <;> simp [h, hst]
  · simp [h]

theorem foldl_numPubsAt (l : List Article) :
    ∀ (base : List Article) (st : AuthorsDict),
      (∀ article ∈ l, (article.map Author.name).Nodup) →
      (∀ n, numPubsAt st n = countArticlesWith base n) →
      ∀ n, numPubsAt (l.foldl processArticle st) n = countArticlesWith (base ++ l) n := by
  induction l with
  | nil => intro base st _ hbase n; simpa using hbase n
  | cons article rest ih =>
    intro base st hnd hbase n
    rw [List.foldl_cons]
    have hstep : ∀ m, numPubsAt (processArticle st article) m =
        countArticlesWith (base ++ [article]) m := by
      intro m
      rw [processArticle_numPubsAt st article m (hnd article (by simp)),
        countArticlesWith_append, hbase m]
    have := ih (base ++ [article]) (processArticle st article)
      (fun a ha => hnd a (by simp [ha])) hstep n
    simpa using this

end DataStructure

namespace Coauthor

/-- The six category names accepted by `ArticleAnalyzer.get_articles`
(`coauthor.py` line 30). -/
def validCategories : List String :=
  ["physics", "mathematics", "computer science", "quantitative biology",
   "quantitative finance", "statistics"]

/-- File path read by `ArticleAnalyzer.get_articles` (`coauthor.py` lines
34-35) for an already validated, lowercased category. -/
def readPath (category : String) : String :=
  "author_data/" ++ pyReplaceSpaces category ++ "_authors.json"

/-- Model of `ArticleAnalyzer.get_articles` (`coauthor.py` lines 29-39).
The interactive prompt is the `userInput` argument, the file system is the
map `fs` from paths to parsed JSON contents, and `random.sample(-, 50)` is the
abstract `sample` argument.  `st` is the current `self.authors`.  The invalid
branch prints and returns `None` without touching `self.authors`; a missing
file raises, which also leaves the state unchanged and produces no value. -/
def get_articles (userInput : String) (fs : String → Option AuthorsDict)
    (sample : AuthorsDict → AuthorsDict) (st : AuthorsDict) :
    AuthorsDict × Option AuthorsDict :=
  let category := pyLower userInput
  if category ∉ validCategories then (st, none)
  else
    match fs (readPath category) with
    | none => (st, none)
    | some all_articles =>
      let articles := sample all_articles
      (articles, some articles)

/-- Model of `AuthorComparer.most_influential` (`coauthor.py` lines 167-181):
`sorted(self.authors.items(), key=lambda x: x[1]['num_pubs'], reverse=True)`.
CPython's `sorted` is a stable sort; with `reverse=True` it stably orders by
descending key, which is exactly stable `mergeSort` under the boolean
relation `y.num_pubs ≤ x.num_pubs`. -/
def most_influential (st : AuthorsDict) : List (String × AuthorRec) :=
  st.mergeSort (fun x y => y.2.num_pubs ≤ x.2.num_pubs)

/-- Value access `d[k]` on a Python dict; only evaluated under a prior
membership guard in this program. -/
def dictGet (st : AuthorsDict) (k : String) : AuthorRec :=
  (lookup st k).getD ⟨[], 0⟩

/-- Model of `AuthorComparer.num_coauths` (`coauthor.py` lines 227-244):
membership test on the dict, then the length of the stored co-author list,
else 0. -/
def num_coauths (st : AuthorsDict) (target_author : String) : Nat :=
  if target_author ∈ keys st then (dictGet st target_author).co_authors.length
  else 0

/-- Iteration scheme of Python `max(d, key=d.get)` over an association list of
values with their keys: left fold keeping the first element whose value no
later element strictly exceeds; `none` models the `ValueError` raised on an
empty dict. -/
def pyMax {κ : Type} (l : List (κ × Nat)) : Option (κ × Nat) :=
  match l with
  | [] => none
  | x :: rest => some (rest.foldl (fun best y => if best.2 < y.2 then y else best) x)

/-- Model of `AuthorComparer.num_coauths_all` (`coauthor.py` lines 207-225):
build the name-to-co-author-count dict in insertion order, then take the max
by value. -/
def num_coauths_all (st : AuthorsDict) : Option (String × Nat) :=
  pyMax (st.map (fun e => (e.1, e.2.co_authors.length)))

/-- Model of `AuthorComparer.compare_authors` (`coauthor.py` lines 183-205);
`none` models the `ValueError` that `num_coauths_all` raises on an empty
dict. -/
def compare_authors (st : AuthorsDict) (user_author : String) : Option String :=
  match num_coauths_all st with
  | none => none
  | some (most_influential_author, most_influential_author_coauthors) =>
    let user_author_coauthors := num_coauths st user_author
    if user_author = most_influential_author then
      some (user_author ++ " is the most influential author with " ++
        toString most_influential_author_coauthors ++ " unique co-authors.")
    else if user_author_coauthors = most_influential_author_coauthors then
      some (user_author ++ " is tied with " ++ most_influential_author ++
        " for the most unique co-authors with " ++
        toString most_influential_author_coauthors ++ ".")
    else
      some (user_author ++ " has " ++ toString user_author_coauthors ++
        " unique co-authors, while the author with the most unique co-authors is " ++
        most_influential_author ++ " with " ++
        toString most_influential_author_coauthors ++ ".")

/-- Python `tuple(sorted((a, b)))` on two strings (`coauthor.py` line 292):
the pair in nondecreasing code-point order. -/
def sortPair (a b : String) : String × String :=
  if charListLt b.data a.data then (b, a) else (a, b)

/-- One `coauthor_counts[pair]` bump (`coauthor.py` lines 293-296): insert the
pair with count 1 when absent, otherwise increment in place. -/
def bump (counts : List ((String × String) × Nat)) (pair : String × String) :
    List ((String × String) × Nat) :=
  match lookup counts pair with
  | none => counts ++ [(pair, 1)]
  | some _ => updateValue counts pair (fun v => v + 1)

/-- Pair-count accumulation loop of `AuthorComparer.most_common_coauthors`
(`coauthor.py` lines 288-296). -/
def coauthor_counts (st : AuthorsDict) : List ((String × String) × Nat) :=
  st.foldl
    (fun counts e =>
      e.2.co_authors.foldl (fun cs coauthor => bump cs (sortPair e.1 coauthor)) counts)
    []

/-- Model of `AuthorComparer.most_common_coauthors` (`coauthor.py` lines
275-302); `none` models the `ValueError` of `max` over an empty dict. -/
def most_common_coauthors (st : AuthorsDict) : Option ((String × String) × Nat) :=
  pyMax (coauthor_counts st)

/-- Total pair occurrences accumulated for the key `q`: over every record, the
number of entries of its co-author list whose sorted pair with the record's
key is `q`. -/
def pairOccurrences (st : AuthorsDict) (q : String × String) : Nat :=
  (st.map (fun e => e.2.co_authors.countP (fun c => sortPair e.1 c = q))).sum

/-- State-passing form of `most_influential`: the pair of the `self.authors`
dict the method leaves behind and the returned list.  The method body reads
`self.authors.items()` and assigns nothing, so the state passes through. -/
def most_influentialS (st : AuthorsDict) : AuthorsDict × List (String × AuthorRec) :=
  (st, most_influential st)

/-- State-passing form of `compare_authors`: the body only calls the two read
helpers and builds strings. -/
def compare_authorsS (st : AuthorsDict) (user_author : String) :
    AuthorsDict × Option String :=
  (st, compare_authors st user_author)

/-- State-passing form of `num_coauths_all`: the body builds a fresh local
dict `author_coauthors` and never writes `self.authors`. -/
def num_coauths_allS (st : AuthorsDict) : AuthorsDict × Option (String × Nat) :=
  (st, num_coauths_all st)

/-- State-passing form of `num_coauths`: a membership test and a length. -/
def num_coauthsS (st : AuthorsDict) (target_author : String) : AuthorsDict × Nat :=
  (st, num_coauths st target_author)

/-- State-passing form of `most_common_coauthors`: the body accumulates into a
fresh local dict `coauthor_counts` and never writes `self.authors`. -/
def most_common_coauthorsS (st : AuthorsDict) :
    AuthorsDict × Option ((String × String) × Nat) :=
  (st, most_common_coauthors st)

end Coauthor

theorem charListLt_asymm (as : List Char) :
    ∀ bs, charListLt as bs = true → charListLt bs as = false := by
  induction as with
  | nil =>
    intro bs h
    cases bs with
    | nil => simp [charListLt] at h
    | cons b bs => simp [charListLt]
  | cons a as ih =>
    intro bs h
    cases bs with
    | nil => simp [charListLt] at h
    | cons b bs =>
      simp only [charListLt] at h ⊢
      by_cases h1 : a < b
      · have h2 : ¬ b < a := lt_asymm h1
        simp [h1, h2]
      · by_cases h2 : b < a
        · simp [h1, h2] at h
        · simp [h1, h2] at h ⊢
          exact ih bs h

theorem charListLt_conn (as : List Char) :
    ∀ bs, charListLt as bs = false → charListLt bs as = false → as = bs := by
  induction as with
  | nil =>
    intro bs h1 _
    cases bs with
    | nil => rfl
    | cons b bs => simp [charListLt] at h1
  | cons a as ih =>
    intro bs h1 h2
    cases bs with
    | nil => simp [charListLt] at h2
    | cons b bs =>
      simp only [charListLt] at h1 h2
      by_cases hab : a < b
      · simp [hab] at h1
      · by_cases hba : b < a
        · simp [hba] at h2
        · have hone : a = b := le_antisymm (not_lt.mp hba) (not_lt.mp hab)
          simp [hab, hba] at h1 h2
          rw [hone, ih bs h1 h2]

theorem string_data_inj {a b : String} (h : a.data = b.data) : a = b :=
  congrArg String.mk h

theorem sortPair_swap (a b : String) : Coauthor.sortPair a b = Coauthor.sortPair b a := by
  unfold Coauthor.sortPair
  by_cases h1 : charListLt b.data a.data = true
  · have h2 : charListLt a.data b.data = false := charListLt_asymm _ _ h1
    simp [h1, h2]
  · have h1' : charListLt b.data a.data = false := Bool.not_eq_true _ ▸ (by simpa using h1)
    by_cases h2 : charListLt a.data b.data = true
    · simp [h1', h2]
    · have h2' : charListLt a.data b.data = false := by simpa using h2
      have : a = b := string_data_inj (charListLt_conn _ _ h2' h1')
      subst this
      simp

theorem sortPair_eq_iff {a b : String} (hab : a ≠ b) (x c : String) :
    Coauthor.sortPair x c = Coauthor.sortPair a b ↔
      (x = a ∧ c = b) ∨ (x = b ∧ c = a) := by
  constructor
  · intro h
    unfold Coauthor.sortPair at h
    by_cases h1 : charListLt c.data x.data <;> by_cases h2 : charListLt b.data a.data <;>
      simp [h1, h2, Prod.ext_iff] at h <;> tauto
  · rintro (⟨rfl, rfl⟩ | ⟨rfl, rfl⟩)
    · rfl
    · exact sortPair_swap x c

namespace Coauthor

/-- Count stored in the pair-count dict under the key `q`, 0 when absent. -/
def lookupCount (counts : List ((String × String) × Nat)) (q : String × String) : Nat :=
  (lookup counts q).getD 0

theorem bump_lookupCount (cs : List ((String × String) × Nat))
    (p q : String × String) :
    lookupCount (bump cs p) q = lookupCount cs q + (if q = p then 1 else 0) := by
  unfold bump lookupCount
  cases hp : lookup cs p with
  | none =>
    rw [lookup_append]
    by_cases hq : q = p
    · subst hq
      simp [hp]
    · have hpq : p ≠ q := fun hc => hq hc.symm
      cases hq2 : lookup cs q with
      | none => simp [hq2, hq, hpq]
      | some v => simp [hq2, hq]
  | some v =>
    rw [lookup_updateValue]
    by_cases hq : q = p
    · subst hq
      simp [hp]
    · simp [hq]

theorem foldl_bump_lookupCount (co : List String) :
    ∀ (cs : List ((String × String) × Nat)) (a : String) (q : String × String),
      lookupCount (co.foldl (fun cs2 c => bump cs2 (sortPair a c)) cs) q =
        lookupCount cs q + co.countP (fun c => sortPair a c = q) := by
  induction co with
  | nil => intro cs a q; simp
  | cons c co ih =>
    intro cs a q
    rw [List.foldl_cons, ih, bump_lookupCount, List.countP_cons]
    by_cases h : sortPair a c = q
    · simp [h]
      omega
    · have h' : ¬ (q = sortPair a c) := fun hc => h hc.symm
      simp [h, h']

theorem coauthor_counts_lookupCount (st : AuthorsDict) (q : String × String) :
    lookupCount (coauthor_counts st) q = pairOccurrences st q := by
  unfold coauthor_counts pairOccurrences
  suffices h : ∀ (l : AuthorsDict) (cs : List ((String × String) × Nat)),
      lookupCount
        (l.foldl (fun counts e =>
          e.2.co_authors.foldl (fun cs2 c => bump cs2 (sortPair e.1 c)) counts) cs) q =
        lookupCount cs q +
          (l.map (fun e => e.2.co_authors.countP (fun c => sortPair e.1 c = q))).sum by
    simpa [lookupCount] using h st []
  intro l
  induction l with
  | nil => intro cs; simp
  | cons e l ih =>
    intro cs
    rw [List.foldl_cons, ih, foldl_bump_lookupCount]
    simp
    omega

theorem nodupKeys_bump (cs : List ((String × String) × Nat)) (p : String × String)
    (h : (keys cs).Nodup) : (keys (bump cs p)).Nodup := by
  unfold bump
  cases hp : lookup cs p with
  | none =>
    have hnp : p ∉ keys cs := (lookup_eq_none_iff cs p).mp hp
    have : keys (cs ++ [(p, 1)]) = keys cs ++ [p] := by simp [keys]
    rw [this]
    simp [List.nodup_append, h, hnp]
  | some v =>
    rw [keys_updateValue]
    exact h

theorem nodupKeys_foldl_bump (co : List String) :
    ∀ (cs : List ((String × String) × Nat)) (a : String), (keys cs).Nodup →
      (keys (co.foldl (fun cs2 c => bump cs2 (sortPair a c)) cs)).Nodup := by
  induction co with
  | nil => intro cs a h; simpa using h
  | cons c co ih =>
    intro cs a h
    rw [List.foldl_cons]
    exact ih _ a (nodupKeys_bump cs _ h)

theorem nodupKeys_coauthor_counts (st : AuthorsDict) :
    (keys (coauthor_counts st)).Nodup := by
  unfold coauthor_counts
  suffices h : ∀ (l : AuthorsDict) (cs : List ((String × String) × Nat)),
      (keys cs).Nodup →
      (keys (l.foldl
        (fun counts e =>
          e.2.co_authors.foldl (fun cs2 c => bump cs2 (sortPair e.1 c)) counts)
        cs)).Nodup from h st [] (by simp [keys])
  intro l
  induction l with
  | nil => intro cs h; simpa using h
  | cons e l ih =>
    intro cs h
    rw [List.foldl_cons]
    exact ih _ (nodupKeys_foldl_bump _ _ _ h)

theorem pyFoldMax_spec {κ : Type} (rest : List (κ × Nat)) :
    ∀ acc : κ × Nat,
      (rest.foldl (fun best y => if best.2 < y.2 then y else best) acc = acc ∨
        rest.foldl (fun best y => if best.2 < y.2 then y else best) acc ∈ rest) ∧
      acc.2 ≤ (rest.foldl (fun best y => if best.2 < y.2 then y else best) acc).2 ∧
      ∀ y ∈ rest, y.2 ≤ (rest.foldl (fun best y => if best.2 < y.2 then y else best) acc).2 := by
  induction rest with
  | nil => intro acc; simp
  | cons z rest ih =>
    intro acc
    rw [List.foldl_cons]
    obtain ⟨hmem, hacc, hall⟩ := ih (if acc.2 < z.2 then z else acc)
    have hstep : acc.2 ≤ (if acc.2 < z.2 then z else acc).2 := by
      by_cases hz : acc.2 < z.2
      · rw [if_pos hz]; omega
      · rw [if_neg hz]
    have hstepz : z.2 ≤ (if acc.2 < z.2 then z else acc).2 := by
      by_cases hz : acc.2 < z.2
      · rw [if_pos hz]
      · rw [if_neg hz]; omega
    refine ⟨?_, le_trans hstep hacc, ?_⟩
    · rcases hmem with heq | hin
      · rw [heq]
        by_cases hz : acc.2 < z.2
        · rw [if_pos hz]; exact Or.inr (List.mem_cons_self _ _)
        · rw [if_neg hz]; exact Or.inl rfl
      · exact Or.inr (List.mem_cons_of_mem _ hin)
    · intro w hw
      rcases List.mem_cons.mp hw with rfl | hwr
      · exact le_trans hstepz hacc
      · exact hall w hwr

theorem pyMax_spec {κ : Type} (l : List (κ × Nat)) (h : l ≠ []) :
    ∃ x, pyMax l = some x ∧ x ∈ l ∧ ∀ y ∈ l, y.2 ≤ x.2 := by
  cases l with
  | nil => exact absurd rfl h
  | cons x rest =>
    obtain ⟨hmem, hacc, hall⟩ := pyFoldMax_spec rest x
    refine ⟨_, rfl, ?_, ?_⟩
    · rcases hmem with heq | hin
      · rw [heq]; exact List.mem_cons_self _ _
      · exact List.mem_cons_of_mem _ hin
    · intro y hy
      rcases List.mem_cons.mp hy with rfl | hyr
      · exact hacc
      · exact hall y hyr

theorem coauthor_counts_ne_nil (st : AuthorsDict)
    (h : ∃ e ∈ st, e.2.co_authors ≠ []) : coauthor_counts st ≠ [] := by
  obtain ⟨e, he, hco⟩ := h
  obtain ⟨c, hc⟩ := List.exists_mem_of_ne_nil _ hco
  have hcount : 0 < e.2.co_authors.countP (fun x => sortPair e.1 x = sortPair e.1 c) :=
    List.countP_pos_iff.mpr ⟨c, hc, by simp⟩
  have hmem : e.2.co_authors.countP (fun x => sortPair e.1 x = sortPair e.1 c) ∈
      st.map (fun e' => e'.2.co_authors.countP (fun x => sortPair e'.1 x = sortPair e.1 c)) :=
    List.mem_map.mpr ⟨e, he, rfl⟩
  have hle := List.single_le_sum (l :=
      st.map (fun e' => e'.2.co_authors.countP (fun x => sortPair e'.1 x = sortPair e.1 c)))
    (fun x _ => Nat.zero_le x) _ hmem
  have hpos : 0 < pairOccurrences st (sortPair e.1 c) := lt_of_lt_of_le hcount hle
  intro hnil
  have := coauthor_counts_lookupCount st (sortPair e.1 c)
  rw [hnil] at this
  simp [lookupCount] at this
  omega

theorem sortPair_left_eq_iff {a b : String} (hab : a ≠ b) (c : String) :
    sortPair a c = sortPair a b ↔ c = b := by
  rw [sortPair_eq_iff hab]
  constructor
  · rintro (⟨_, h⟩ | ⟨h1, _⟩)
    · exact h
    · exact absurd h1 hab
  · intro h
    exact Or.inl ⟨rfl, h⟩

theorem sortPair_right_eq_iff {a b : String} (hab : a ≠ b) (c : String) :
    sortPair b c = sortPair a b ↔ c = a := by
  rw [sortPair_eq_iff hab]
  constructor
  · rintro (⟨h1, _⟩ | ⟨_, h2⟩)
    · exact absurd h1.symm hab
    · exact h2
  · intro h
    exact Or.inr ⟨rfl, h⟩

theorem sortPair_no_match {a b x : String} (hab : a ≠ b) (hxa : x ≠ a)
    (hxb : x ≠ b) (c : String) : sortPair x c ≠ sortPair a b := by
  intro h
  rcases (sortPair_eq_iff hab x c).mp h with ⟨h1, _⟩ | ⟨h1, _⟩
  exacts [hxa h1, hxb h1]

@[simp] theorem pairOccurrences_nil (q : String × String) :
    pairOccurrences [] q = 0 := rfl

@[simp] theorem pairOccurrences_cons (e : String × AuthorRec) (st : AuthorsDict)
    (q : String × String) :
    pairOccurrences (e :: st) q =
      e.2.co_authors.countP (fun c => sortPair e.1 c = q) + pairOccurrences st q := by
  simp [pairOccurrences]

theorem countP_sortPair_left {a b : String} (hab : a ≠ b) (co : List String) :
    co.countP (fun c => sortPair a c = sortPair a b) = co.count b := by
  rw [List.count_eq_countP]
  apply List.countP_congr
  intro c _
  simp [sortPair_left_eq_iff hab]

theorem countP_sortPair_right {a b : String} (hab : a ≠ b) (co : List String) :
    co.countP (fun c => sortPair b c = sortPair a b) = co.count a := by
  rw [List.count_eq_countP]
  apply List.countP_congr
  intro c _
  simp [sortPair_right_eq_iff hab]

theorem pairOccurrences_zero_of_absent {a b : String} (hab : a ≠ b) :
    ∀ st : AuthorsDict, a ∉ keys st → b ∉ keys st →
      pairOccurrences st (sortPair a b) = 0 := by
  intro st
  induction st with
  | nil => intro _ _; rfl
  | cons e st ih =>
    intro hka hkb
    have hka' : a ≠ e.1 ∧ a ∉ keys st := by
      simpa [List.mem_cons, not_or] using (show a ∉ e.1 :: keys st from hka)
    have hkb' : b ≠ e.1 ∧ b ∉ keys st := by
      simpa [List.mem_cons, not_or] using (show b ∉ e.1 :: keys st from hkb)
    rw [pairOccurrences_cons, ih hka'.2 hkb'.2]
    have hzero : e.2.co_authors.countP (fun c => sortPair e.1 c = sortPair a b) = 0 :=
      List.countP_eq_zero.mpr (fun c _ => by
        simpa using sortPair_no_match hab (fun hc => hka'.1 hc.symm)
          (fun hc => hkb'.1 hc.symm) c)
    omega

theorem pairOccurrences_single_side {a b : String} (hab : a ≠ b) :
    ∀ (st : AuthorsDict) (rb : AuthorRec), (keys st).Nodup → a ∉ keys st →
      lookup st b = some rb →
      pairOccurrences st (sortPair a b) = rb.co_authors.count a := by
  intro st
  induction st with
  | nil => intro rb _ _ hb; simp at hb
  | cons e st ih =>
    intro rb hnd hka hb
    obtain ⟨hnd1, hnd2⟩ := List.nodup_cons.mp (show (e.1 :: keys st).Nodup from hnd)
    have hka' : a ≠ e.1 ∧ a ∉ keys st := by
      simpa [List.mem_cons, not_or] using (show a ∉ e.1 :: keys st from hka)
    by_cases heb : e.1 = b
    · have herec : e.2 = rb := by simpa [heb] using hb
      have hbst : b ∉ keys st := heb ▸ hnd1
      rw [pairOccurrences_cons,
        pairOccurrences_zero_of_absent hab st hka'.2 hbst, herec, heb,
        countP_sortPair_right hab]
      omega
    · have hb' : lookup st b = some rb := by simpa [heb] using hb
      rw [pairOccurrences_cons, ih rb hnd2 hka'.2 hb']
      have hzero : e.2.co_authors.countP (fun c => sortPair e.1 c = sortPair a b) = 0 :=
        List.countP_eq_zero.mpr (fun c _ => by
          simpa using sortPair_no_match hab (fun hc => hka'.1 hc.symm) heb c)
      omega

theorem pairOccurrences_both_sides {a b : String} (hab : a ≠ b) :
    ∀ (st : AuthorsDict) (ra rb : AuthorRec), (keys st).Nodup →
      lookup st a = some ra → lookup st b = some rb →
      pairOccurrences st (sortPair a b) =
        ra.co_authors.count b + rb.co_authors.count a := by
  intro st
  induction st with
  | nil => intro ra rb _ ha _; simp at ha
  | cons e st ih =>
    intro ra rb hnd ha hb
    obtain ⟨hnd1, hnd2⟩ := List.nodup_cons.mp (show (e.1 :: keys st).Nodup from hnd)
    by_cases hea : e.1 = a
    · have herec : e.2 = ra := by simpa [hea] using ha
      have hneb : e.1 ≠ b := fun hc => hab (hea ▸ hc ▸ rfl)
      have hb' : lookup st b = some rb := by simpa [hneb] using hb
      have hast : a ∉ keys st := hea ▸ hnd1
      rw [pairOccurrences_cons, pairOccurrences_single_side hab st rb hnd2 hast hb',
        herec, hea, countP_sortPair_left hab]
    · by_cases heb : e.1 = b
      · have herec : e.2 = rb := by simpa [heb] using hb
        have ha' : lookup st a = some ra := by simpa [hea] using ha
        have hbst : b ∉ keys st := heb ▸ hnd1
        have hba : b ≠ a := fun hc => hab hc.symm
        have hswap : sortPair b a = sortPair a b := sortPair_swap b a
        rw [pairOccurrences_cons, ← hswap,
          pairOccurrences_single_side hba st ra hnd2 hbst ha', hswap, herec, heb,
          countP_sortPair_right hab]
        omega
      · have ha' : lookup st a = some ra := by simpa [hea] using ha
        have hb' : lookup st b = some rb := by simpa [heb] using hb
        rw [pairOccurrences_cons, ih ra rb hnd2 ha' hb']
        have hzero : e.2.co_authors.countP (fun c => sortPair e.1 c = sortPair a b) = 0 :=
          List.countP_eq_zero.mpr (fun c _ => by
            simpa using sortPair_no_match hab hea heb c)
        omega

end Coauthor

/-- C1: for every list of articles processed by `extract_authors` and every
author record produced, the record's co-author list never contains that
author's own name, including when an article repeats an author name. -/
theorem claim_C1 (articles : List Article) (n : String) (r : AuthorRec)
    (h : lookup (DataStructure.extract_authors articles) n = some r) :
    n ∉ r.co_authors := by
  have base : DataStructure.NoSelf [] := fun m s hm => by simp at hm
  have hall : DataStructure.NoSelf (DataStructure.extract_authors articles) := by
    unfold DataStructure.extract_authors
    exact articles.foldlRecOn DataStructure.processArticle [] base
      (fun st hst article _ => DataStructure.noSelf_processArticle st article hst)
  exact hall n r h

/-- C1 witness: the article `[A, A, B]` repeats the name `A`; the produced
record for `A` is `⟨["B"], 2⟩` and indeed contains no self-reference. -/
theorem claim_C1_witness : "A" ∉ (AuthorRec.mk ["B"] 2).co_authors :=
  claim_C1 [[⟨"A"⟩, ⟨"A"⟩, ⟨"B"⟩]] "A" ⟨["B"], 2⟩ (by decide)

/-- C2 counterexample: in the single article `[A, A]` the name `A` appears in
exactly one article, yet the code increments once per occurrence and stores
`num_pubs = 2`. -/
theorem claim_C2_counterexample :
    lookup (DataStructure.extract_authors [[⟨"A"⟩, ⟨"A"⟩]]) "A" =
      some ⟨[], 2⟩ ∧
    DataStructure.countArticlesWith [[⟨"A"⟩, ⟨"A"⟩]] "A" = 1 := by
  decide

/-- C2 (amended): for article lists in which no single article repeats an
author name, the `num_pubs` field of every produced record equals the number
of articles of the input in which that author's name appeared. -/
theorem claim_C2 (articles : List Article)
    (hnd : ∀ article ∈ articles, (article.map Author.name).Nodup)
    (n : String) (r : AuthorRec)
    (h : lookup (DataStructure.extract_authors articles) n = some r) :
    r.num_pubs = DataStructure.countArticlesWith articles n := by
  have hfold := DataStructure.foldl_numPubsAt articles [] [] hnd (fun m => rfl) n
  have hnum : DataStructure.numPubsAt (DataStructure.extract_authors articles) n =
      DataStructure.countArticlesWith articles n := by
    simpa [DataStructure.extract_authors] using hfold
  rw [DataStructure.numPubsAt, h] at hnum
  exact hnum

/-- C2 witness: two duplicate-free articles; `A` appears in both and its
record stores `num_pubs = 2`. -/
theorem claim_C2_witness :
    (AuthorRec.mk ["B"] 2).num_pubs =
      DataStructure.countArticlesWith [[⟨"A"⟩, ⟨"B"⟩], [⟨"A"⟩]] "A" :=
  claim_C2 [[⟨"A"⟩, ⟨"B"⟩], [⟨"A"⟩]] (by decide) "A" ⟨["B"], 2⟩ (by decide)

/-- C3 counterexample: processing the article `[A]` a second time does not
leave the author record unchanged: `num_pubs` grows from 1 to 2. -/
theorem claim_C3_counterexample :
    lookup (DataStructure.extract_authors [[⟨"A"⟩]]) "A" = some ⟨[], 1⟩ ∧
    lookup (DataStructure.extract_authors [[⟨"A"⟩], [⟨"A"⟩]]) "A" = some ⟨[], 2⟩ := by
  decide

/-- C3 (amended): for an article with no repeated author names, processing it
a second time leaves every co-author list unchanged as a set and leaves the
records of authors outside the article fully unchanged, but increments
`num_pubs` of every author of the article by one; it does not leave the
records unchanged. -/
theorem claim_C3 (arts : List Article) (article : Article)
    (hnd : (article.map Author.name).Nodup) (n : String) (r₁ : AuthorRec)
    (h₁ : lookup (DataStructure.extract_authors (arts ++ [article])) n = some r₁) :
    ∃ r₂, lookup (DataStructure.extract_authors (arts ++ [article, article])) n =
        some r₂ ∧
      (∀ x, x ∈ r₂.co_authors ↔ x ∈ r₁.co_authors) ∧
      r₂.num_pubs =
        (if n ∈ article.map Author.name then r₁.num_pubs + 1 else r₁.num_pubs) ∧
      (n ∉ article.map Author.name → r₂ = r₁) := by
  have hsplit : DataStructure.extract_authors (arts ++ [article, article]) =
      DataStructure.processArticle
        (DataStructure.extract_authors (arts ++ [article])) article := by
    have harr : arts ++ [article, article] = (arts ++ [article]) ++ [article] := by
      simp
    rw [harr]
    unfold DataStructure.extract_authors
    rw [List.foldl_append]
    rfl
  have hsplit₁ : DataStructure.extract_authors (arts ++ [article]) =
      DataStructure.processArticle (DataStructure.extract_authors arts) article := by
    unfold DataStructure.extract_authors
    rw [List.foldl_append]
    rfl
  rw [hsplit, DataStructure.processArticle_lookup article _ n hnd]
  by_cases hn : n ∈ article.map Author.name
  · rw [if_pos hn, h₁]
    have hsub : ∀ x ∈ DataStructure.coOf article n, x ∈ r₁.co_authors := by
      have h₁' := h₁
      rw [hsplit₁, DataStructure.processArticle_lookup article _ n hnd, if_pos hn] at h₁'
      cases hst : lookup (DataStructure.extract_authors arts) n with
      | none =>
        rw [hst] at h₁'
        cases h₁'
        intro x hx
        exact hx
      | some r₀ =>
        rw [hst] at h₁'
        cases h₁'
        intro x hx
        exact List.mem_dedup.mpr (List.mem_append.mpr (Or.inr hx))
    refine ⟨_, rfl, ?_, by simp [hn], fun hc => absurd hn hc⟩
    intro x
    simp only [List.mem_dedup, List.mem_append]
    constructor
    · rintro (hx | hx)
      · exact hx
      · exact hsub x hx
    · exact fun hx => Or.inl hx
  · rw [if_neg hn, h₁]
    exact ⟨r₁, rfl, fun x => Iff.rfl, by simp [hn], fun _ => rfl⟩

/-- C3 witness: the duplicate-free article `[A, B]` processed twice; the
record for `A` keeps co-author set `\x7b"B"\x7d` and `num_pubs` rises from 1
to 2. -/
theorem claim_C3_witness :
    ∃ r₂, lookup (DataStructure.extract_authors
        ([] ++ [[⟨"A"⟩, ⟨"B"⟩], [⟨"A"⟩, ⟨"B"⟩]])) "A" = some r₂ ∧
      (∀ x, x ∈ r₂.co_authors ↔ x ∈ (AuthorRec.mk ["B"] 1).co_authors) ∧
      r₂.num_pubs =
        (if "A" ∈ ([⟨"A"⟩, ⟨"B"⟩] : Article).map Author.name then
          (AuthorRec.mk ["B"] 1).num_pubs + 1 else (AuthorRec.mk ["B"] 1).num_pubs) ∧
      ("A" ∉ ([⟨"A"⟩, ⟨"B"⟩] : Article).map Author.name →
        r₂ = AuthorRec.mk ["B"] 1) :=
  claim_C3 [] [⟨"A"⟩, ⟨"B"⟩] (by decide) "A" ⟨["B"], 1⟩ (by decide)

/-- C4: `most_influential` returns all author records (a permutation of the
dict's items), sorted by `num_pubs` in descending order, and the ranking is
stable under ties: for every publication count, the items with that count
appear in their original insertion order (their filtered subsequence is
unchanged). -/
theorem claim_C4 (st : AuthorsDict) :
    (Coauthor.most_influential st).Perm st ∧
    (Coauthor.most_influential st).Pairwise
      (fun x y => y.2.num_pubs ≤ x.2.num_pubs) ∧
    ∀ c : Nat,
      (Coauthor.most_influential st).filter (fun e => e.2.num_pubs = c) =
        st.filter (fun e => e.2.num_pubs = c) := by
  have htrans : ∀ x y z : String × AuthorRec,
      (decide (y.2.num_pubs ≤ x.2.num_pubs)) = true →
      (decide (z.2.num_pubs ≤ y.2.num_pubs)) = true →
      (decide (z.2.num_pubs ≤ x.2.num_pubs)) = true := by
    intro x y z h1 h2
    simp only [decide_eq_true_eq] at h1 h2 ⊢
    omega
  have htotal : ∀ x y : String × AuthorRec,
      ((decide (y.2.num_pubs ≤ x.2.num_pubs)) ||
        (decide (x.2.num_pubs ≤ y.2.num_pubs))) = true := by
    intro x y
    simp only [Bool.or_eq_true, decide_eq_true_eq]
    omega
  refine ⟨List.mergeSort_perm st _, ?_, ?_⟩
  · have hs := List.sorted_mergeSort htrans htotal st
    exact hs.imp (fun h => by simpa using h)
  · intro c
    have hsubl : List.Sublist (st.filter (fun e => e.2.num_pubs = c)) st :=
      List.filter_sublist st
    have hpw : (st.filter (fun e => e.2.num_pubs = c)).Pairwise
        (fun x y => (decide (y.2.num_pubs ≤ x.2.num_pubs)) = true) := by
      apply List.pairwise_of_forall_mem_list
      intro x hx y hy
      have hxc := List.of_mem_filter hx
      have hyc := List.of_mem_filter hy
      simp only [decide_eq_true_eq] at hxc hyc ⊢
      omega
    have hsub2 : List.Sublist (st.filter (fun e => e.2.num_pubs = c))
        (Coauthor.most_influential st) :=
      List.sublist_mergeSort htrans htotal hpw hsubl
    have hself : (st.filter (fun e => e.2.num_pubs = c)).filter
        (fun e => e.2.num_pubs = c) = st.filter (fun e => e.2.num_pubs = c) := by
      apply List.filter_eq_self.mpr
      intro a ha
      have h2 := List.of_mem_filter ha
      exact h2
    have hsub3 : List.Sublist (st.filter (fun e => e.2.num_pubs = c))
        ((Coauthor.most_influential st).filter (fun e => e.2.num_pubs = c)) := by
      rw [← hself]
      exact hsub2.filter _
    have hlen : ((Coauthor.most_influential st).filter
        (fun e => e.2.num_pubs = c)).length =
        (st.filter (fun e => e.2.num_pubs = c)).length :=
      ((List.mergeSort_perm st _).filter _).length_eq
    exact (hsub3.eq_of_length hlen.symm).symm

/-- C5: entering a category whose lowercasing is not one of the six valid
categories makes `get_articles` abort: no file is consulted and the `authors`
state is returned unchanged with no result. -/
theorem claim_C5 (input : String) (fs : String → Option AuthorsDict)
    (sample : AuthorsDict → AuthorsDict) (st : AuthorsDict)
    (h : pyLower input ∉ Coauthor.validCategories) :
    Coauthor.get_articles input fs sample st = (st, none) := by
  simp [Coauthor.get_articles, h]

/-- C5 witness: the category "astrology" is invalid; the call returns the
empty state unchanged, with no result, for any file system. -/
theorem claim_C5_witness :
    Coauthor.get_articles "astrology" (fun _ => none) id [] = ([], none) :=
  claim_C5 "astrology" (fun _ => none) id [] (by decide)

/-- C7: every `AuthorComparer` analysis operation leaves the `authors` state
it threads through unchanged: the method bodies only read the dict. -/
theorem claim_C7 (st : AuthorsDict) (user_author target_author : String) :
    (Coauthor.most_influentialS st).1 = st ∧
    (Coauthor.compare_authorsS st user_author).1 = st ∧
    (Coauthor.num_coauths_allS st).1 = st ∧
    (Coauthor.num_coauthsS st target_author).1 = st ∧
    (Coauthor.most_common_coauthorsS st).1 = st :=
  ⟨rfl, rfl, rfl, rfl, rfl⟩

/-- C8: for each of the six valid categories, the path written by
`extract_authors` equals the path read back by `get_articles` (which
lowercases its input before building the path), so a write followed by a read
targets the same per-category file. -/
theorem claim_C8 (category : String) (h : category ∈ Coauthor.validCategories) :
    Coauthor.readPath (pyLower category) = DataStructure.writePath category := by
  simp only [Coauthor.validCategories, List.mem_cons, List.not_mem_nil, or_false]
    at h
  rcases h with rfl | rfl | rfl | rfl | rfl | rfl <;> rfl

/-- C8 witness: the category "computer science" (the one with a space) is
written to and read from `author_data/computer_science_authors.json`. -/
theorem claim_C8_witness :
    Coauthor.readPath (pyLower "computer science") =
      DataStructure.writePath "computer science" :=
  claim_C8 "computer science" (by decide)

/-- C9: `num_coauths` is total over author names: a missing name yields 0
rather than a failure, and a present name yields the length of the stored
co-author list. -/
theorem claim_C9 (st : AuthorsDict) (target_author : String) :
    Coauthor.num_coauths st target_author =
      match lookup st target_author with
      | some r => r.co_authors.length
      | none => 0 := by
  unfold Coauthor.num_coauths Coauthor.dictGet
  by_cases h : target_author ∈ keys st
  · cases hlk : lookup st target_author with
    | none => exact absurd h (fun hc => (lookup_eq_none_iff st target_author).mp hlk hc)
    | some r => simp [h, hlk]
  · have hlk : lookup st target_author = none :=
      (lookup_eq_none_iff st target_author).mpr h
    simp [h, hlk]

/-- C10: pair counting in `most_common_coauthors` is symmetric: for distinct
present authors `a` and `b`, the count accumulated under the sorted pair key
is the number of occurrences of `b` in `a`'s co-author list plus the number
of occurrences of `a` in `b`'s. -/
theorem claim_C10 (st : AuthorsDict) (a b : String) (ra rb : AuthorRec)
    (hnd : (keys st).Nodup) (hab : a ≠ b)
    (ha : lookup st a = some ra) (hb : lookup st b = some rb) :
    Coauthor.lookupCount (Coauthor.coauthor_counts st) (Coauthor.sortPair a b) =
      ra.co_authors.count b + rb.co_authors.count a := by
  rw [Coauthor.coauthor_counts_lookupCount]
  exact Coauthor.pairOccurrences_both_sides hab st ra rb hnd ha hb

/-- C10 witness: `A` lists `B` twice, `B` lists `A` once; the sorted pair key
`(A, B)` accumulates 2 + 1 = 3. -/
theorem claim_C10_witness :
    Coauthor.lookupCount
      (Coauthor.coauthor_counts
        [("A", AuthorRec.mk ["B", "C", "B"] 1), ("B", AuthorRec.mk ["A"] 2)])
      (Coauthor.sortPair "A" "B") =
      (AuthorRec.mk ["B", "C", "B"] 1).co_authors.count "B" +
        (AuthorRec.mk ["A"] 2).co_authors.count "A" :=
  claim_C10 [("A", AuthorRec.mk ["B", "C", "B"] 1), ("B", AuthorRec.mk ["A"] 2)]
    "A" "B" (AuthorRec.mk ["B", "C", "B"] 1) (AuthorRec.mk ["A"] 2)
    (by decide) (by decide) (by decide) (by decide)

/-- C6 counterexample: first, on the non-empty dict whose only record has an
empty co-author list, `most_common_coauthors` returns nothing (Python raises
`ValueError` in `max`) instead of a pair; second, after aggregating three
articles co-authored by `A` and `B`, the returned count is 2 (one per
direction of the deduplicated co-author lists), not the number 3 of articles
the pair co-authored together. -/
theorem claim_C6_counterexample :
    Coauthor.most_common_coauthors [("A", AuthorRec.mk [] 1)] = none ∧
    Coauthor.most_common_coauthors
      (DataStructure.extract_authors
        [[⟨"A"⟩, ⟨"B"⟩], [⟨"A"⟩, ⟨"B"⟩], [⟨"A"⟩, ⟨"B"⟩]]) =
      some (("A", "B"), 2) ∧
    (([[⟨"A"⟩, ⟨"B"⟩], [⟨"A"⟩, ⟨"B"⟩], [⟨"A"⟩, ⟨"B"⟩]] : List Article).filter
      (fun article => "A" ∈ article.map Author.name ∧
        "B" ∈ article.map Author.name)).length = 3 := by
  decide

/-- C6 (amended): for every author dict in which some record has a non-empty
co-author list, `most_common_coauthors` returns a pair and a count, the count
is the total number of co-author-list occurrences accumulated under that
sorted pair key (both directions summed), and no pair key has a larger
total. -/
theorem claim_C6 (st : AuthorsDict) (h : ∃ e ∈ st, e.2.co_authors ≠ []) :
    ∃ p c, Coauthor.most_common_coauthors st = some (p, c) ∧
      c = Coauthor.pairOccurrences st p ∧
      ∀ q, Coauthor.pairOccurrences st q ≤ c := by
  have hne := Coauthor.coauthor_counts_ne_nil st h
  obtain ⟨x, hx, hxmem, hxmax⟩ := Coauthor.pyMax_spec _ hne
  refine ⟨x.1, x.2, ?_, ?_, ?_⟩
  · unfold Coauthor.most_common_coauthors
    rw [hx]
  · have hlk : lookup (Coauthor.coauthor_counts st) x.1 = some x.2 :=
      lookup_of_mem_nodup (Coauthor.nodupKeys_coauthor_counts st) hxmem
    have := Coauthor.coauthor_counts_lookupCount st x.1
    rw [Coauthor.lookupCount, hlk, Option.getD_some] at this
    exact this
  · intro q
    rw [← Coauthor.coauthor_counts_lookupCount]
    rw [Coauthor.lookupCount]
    cases hq : lookup (Coauthor.coauthor_counts st) q with
    | none => exact Nat.zero_le _
    | some v => exact hxmax (q, v) (lookup_mem hq)

/-- C6 witness: the dict with the single record `A ↦ ⟨["B"], 1⟩` has a
non-empty co-author list, and the theorem produces the maximal pair. -/
theorem claim_C6_witness :
    ∃ p c, Coauthor.most_common_coauthors [("A", AuthorRec.mk ["B"] 1)] =
        some (p, c) ∧
      c = Coauthor.pairOccurrences [("A", AuthorRec.mk ["B"] 1)] p ∧
      ∀ q, Coauthor.pairOccurrences [("A", AuthorRec.mk ["B"] 1)] q ≤ c :=
  claim_C6 [("A", AuthorRec.mk ["B"] 1)]
    ⟨("A", AuthorRec.mk ["B"] 1), by decide, by decide⟩

end Portfolio
